/-
Verification of the Learning Buddy core logic (src/app.py):
  - `_normalize_text`  (answer normalization)
  - `check_answers`    (grading: score + per-item feedback)
  - `_parse_quiz_json` (robust quiz JSON parsing)
  - `generate_quiz`    (question-count clamping)

Python strings are modelled as lists of characters (`Str`).  Python's
regex character classes (`\w`, `\W`, `\s`) and `str.lower`/`str.strip`
are modelled on the ASCII fragment, matching the core library functions
`Char.isAlpha`, `Char.isDigit`, `Char.toLower`.
-/
import Mathlib

/-- Python strings, modelled as lists of characters. -/
abbrev Str := List Char

/-- Python's `str.strip` / regex `\s` whitespace class (ASCII fragment):
space, tab, newline, carriage return, vertical tab, form feed. -/
def pyIsSpace (c : Char) : Bool :=
  c == ' ' || c == '\t' || c == '\n' || c == '\r' || c == '\x0b' || c == '\x0c'

/-- Regex `\w` word-character class (ASCII fragment): letter, digit or
underscore. -/
def pyIsWordChar (c : Char) : Bool :=
  c.isAlpha || c.isDigit || c == '_'

/-- The character class `[\W_]` from `_normalize_text` (src/app.py:107):
a non-word character, or an underscore. -/
def inClassW (c : Char) : Bool :=
  !(pyIsWordChar c) || c == '_'

/-- Core of `re.sub(r"[X]+", " ", s)`: replace every maximal run of
characters satisfying `p` by a single space.  The boolean flag records
whether the previous character was inside a run (in which case the
current run character is dropped rather than emitting a new space). -/
def subRunsAux (p : Char → Bool) : Bool → Str → Str
  | _, [] => []
  | prev, c :: cs =>
    if p c then
      if prev then subRunsAux p true cs else ' ' :: subRunsAux p true cs
    else
      c :: subRunsAux p false cs

/-- `re.sub(r"[X]+", " ", s)` where `X` is the class decided by `p`. -/
def pySubRun (p : Char → Bool) (s : Str) : Str :=
  subRunsAux p false s

/-- Left half of Python `str.strip`: drop leading whitespace. -/
def lstrip (s : Str) : Str := s.dropWhile pyIsSpace

/-- Right half of Python `str.strip`: drop trailing whitespace. -/
def rstrip (s : Str) : Str := (s.reverse.dropWhile pyIsSpace).reverse

/-- Python `str.strip`: drop leading and trailing whitespace. -/
def pyStrip (s : Str) : Str := rstrip (lstrip s)

/-- Python `str.lower` (ASCII fragment). -/
def pyLower (s : Str) : Str := s.map Char.toLower

/-- `_normalize_text` (src/app.py:105-109):
`s = s.lower().strip()`; `s = re.sub(r"[\W_]+", " ", s)`;
`s = re.sub(r"\s+", " ", s).strip()`. -/
def normalizeText (s : Str) : Str :=
  pyStrip (pySubRun pyIsSpace (pySubRun inClassW (pyStrip (pyLower s))))

/-- `pat.isPrefixOf s` for character lists: does `s` start with `pat`? -/
def startsWith : Str → Str → Bool
  | [], _ => true
  | _ :: _, [] => false
  | p :: ps, c :: cs => p == c && startsWith ps cs

/-- Python's substring test `pat in s` (contiguous occurrence). -/
def occursIn (pat : Str) : Str → Bool
  | [] => pat.isEmpty
  | c :: cs => startsWith pat (c :: cs) || occursIn pat cs

/-- The per-item correctness test of `check_answers` (src/app.py:121):
`user == correct or (user and user in correct) or (correct and correct in user)`
(Python truthiness of a string is non-emptiness). -/
def isCorrectAns (user correct : Str) : Bool :=
  user == correct || (!user.isEmpty && occursIn user correct)
    || (!correct.isEmpty && occursIn correct user)

/-- The fixed affirmative feedback string `"Correct!"` (src/app.py:124). -/
def correctMsg : Str := "Correct!".toList

/-- The negative feedback string `f"Not quite. Expected: {correct_answers[i]}"`
built from the original, non-normalized correct answer (src/app.py:126). -/
def wrongMsg (orig : Str) : Str := "Not quite. Expected: ".toList ++ orig

/-- `check_answers` (src/app.py:112-128).  The Python loop runs over
`range(min(len(user_answers), len(correct_answers)))`, normalizes both
answers at each index, increments the score and appends feedback; the
simultaneous structural recursion below processes exactly that shared
prefix in order. -/
def checkAnswers : List Str → List Str → Nat × List Str
  | u :: us, c :: cs =>
    let rest := checkAnswers us cs
    if isCorrectAns (normalizeText u) (normalizeText c)
    then (rest.1 + 1, correctMsg :: rest.2)
    else (rest.1, wrongMsg c :: rest.2)
  | _, _ => (0, [])

/-- Modelled from the spec (amended): replace every maximal run of
characters satisfying `p` with a single space, written as the direct
recursion "emit one space, then skip the rest of the run". -/
def replaceRuns (p : Char → Bool) : Str → Str
  | [] => []
  | c :: cs =>
    if p c then ' ' :: replaceRuns p (cs.dropWhile p) else c :: replaceRuns p cs
termination_by s => s.length
decreasing_by
  · exact Nat.lt_succ_of_le ((List.dropWhile_sublist p).length_le)
  · exact Nat.lt_succ_of_le (Nat.le_refl _)

/-- Modelled from the spec (amended): the class of characters replaced by
normalization — anything that is not a letter or a digit (i.e. the
non-word characters together with the underscore). -/
def nonWordOrUnderscore (c : Char) : Bool :=
  !(c.isAlpha || c.isDigit)

/-- Modelled from the spec (amended C4 wording): lowercase; replace every
maximal run of non-word-or-underscore characters with a single space;
collapse whitespace runs to a single space; trim leading/trailing
whitespace. -/
def normalizeSpec (s : Str) : Str :=
  pyStrip (replaceRuns pyIsSpace (replaceRuns nonWordOrUnderscore (pyLower s)))

/- ---------------------------------------------------------------------
JSON model for `_parse_quiz_json` (src/app.py:63-84).  `json.loads` is a
third-party library call; it is modelled as an abstract function
`Str → Option Json` (`none` = the call raised).  JSON numbers are
modelled as integers.  The mutually inductive list/field types keep all
recursions structural. -/

mutual
inductive Json where
  | null : Json
  | bool (b : Bool) : Json
  | num (n : Int) : Json
  | str (s : List Char) : Json
  | arr (xs : JsonList) : Json
  | obj (fs : JsonFields) : Json
inductive JsonList where
  | nil : JsonList
  | cons (hd : Json) (tl : JsonList) : JsonList
inductive JsonFields where
  | nil : JsonFields
  | cons (key : List Char) (value : Json) (tl : JsonFields) : JsonFields
end

/-- Key lookup in a parsed JSON object (`"k" in d` / `d["k"]`); keys of a
`json.loads` result are unique, so first-match lookup is the dict. -/
def fieldsGet : JsonFields → Str → Option Json
  | .nil, _ => none
  | .cons k v tl, key => if k == key then some v else fieldsGet tl key

/-- Python `dict.get(key, default)`. -/
def pyDictGet (fs : JsonFields) (key : Str) (dflt : Json) : Json :=
  match fieldsGet fs key with
  | some v => v
  | none => dflt

/-- A single-quote character (used by Python `repr` of strings). -/
def squote : Char := Char.ofNat 39

/-- Opening curly bracket character. -/
def lbrace : Char := Char.ofNat 123

/-- Closing curly bracket character. -/
def rbrace : Char := Char.ofNat 125

mutual
/-- Python `repr` of a JSON-decoded value (models the recursive rendering
used by `str` on containers; string quoting is modelled with plain single
quotes, escaping elided). -/
def pyRepr : Json → Str
  | .null => "None".toList
  | .bool true => "True".toList
  | .bool false => "False".toList
  | .num n => (toString n).toList
  | .str s => squote :: (s ++ [squote])
  | .arr xs => '[' :: (pyReprList xs ++ [']'])
  | .obj fs => lbrace :: (pyReprFields fs ++ [rbrace])
/-- `", "`-joined reprs of the elements of a JSON array. -/
def pyReprList : JsonList → Str
  | .nil => []
  | .cons x .nil => pyRepr x
  | .cons x tl => pyRepr x ++ ',' :: ' ' :: pyReprList tl
/-- `", "`-joined `key: value` reprs of the fields of a JSON object. -/
def pyReprFields : JsonFields → Str
  | .nil => []
  | .cons k v .nil => (squote :: (k ++ [squote])) ++ ':' :: ' ' :: pyRepr v
  | .cons k v tl =>
    ((squote :: (k ++ [squote])) ++ ':' :: ' ' :: pyRepr v)
      ++ ',' :: ' ' :: pyReprFields tl
end

/-- Python `str(x)` for a JSON-decoded value: a string is itself, any
other value renders as its `repr`. -/
def pyStr : Json → Str
  | .str s => s
  | j => pyRepr j

/-- One parsed quiz item: the dict `{"question": q, "answer": a}`
(src/app.py:81), modelled as the pair of its two field values. -/
abbrev QuizItem := Str × Str

/-- The item loop of `_parse_quiz_json` (src/app.py:75-81): skip
non-dict elements; coerce the `question`/`answer` fields to text via
`str(item.get(..., ""))`, strip them, and keep the item only when both
are non-empty (Python truthiness `if q and a`). -/
def parseItems : JsonList → List QuizItem
  | .nil => []
  | .cons item rest =>
    match item with
    | .obj fs =>
      let q := pyStrip (pyStr (pyDictGet fs "question".toList (Json.str [])))
      let a := pyStrip (pyStr (pyDictGet fs "answer".toList (Json.str [])))
      if !q.isEmpty && !a.isEmpty then (q, a) :: parseItems rest
      else parseItems rest
    | _ => parseItems rest

/-- The shape dispatch of `_parse_quiz_json` (src/app.py:67-72): a dict
whose `questions` key holds a list supplies the items; a bare list is
used directly; anything else yields no items. -/
def parseQuizShaped : Json → List QuizItem
  | .obj fs =>
    match fieldsGet fs "questions".toList with
    | some (.arr xs) => parseItems xs
    | _ => []
  | .arr xs => parseItems xs
  | _ => []

/-- `_parse_quiz_json` (src/app.py:63-84): `json.loads` is the abstract
`loads` argument; a raised parse error (`none`) is caught by the
`except` clause and yields `[]`. -/
def parseQuizJson (loads : Str → Option Json) (text : Str) : List QuizItem :=
  match loads text with
  | none => []
  | some data => parseQuizShaped data

/-- Conversion of the mutual-inductive JSON list to a plain Lean list
(used only by the spec-side description of the parser). -/
def jsonListToList : JsonList → List Json
  | .nil => []
  | .cons x tl => x :: jsonListToList tl

/-- Modelled from the spec: the decision for a single item source element
— `none` (skip) unless it is a key/value record whose `question` and
`answer` fields, coerced to text and trimmed, are both non-empty. -/
def specKeepItem (it : Json) : Option QuizItem :=
  match it with
  | .obj fs =>
    let q := pyStrip (pyStr (pyDictGet fs "question".toList (Json.str [])))
    let a := pyStrip (pyStr (pyDictGet fs "answer".toList (Json.str [])))
    if q = [] ∨ a = [] then none else some (q, a)
  | _ => none

/-- Modelled from the spec: keep, in source order, exactly the elements
accepted by `specKeepItem`. -/
def specItems (items : List Json) : List QuizItem :=
  items.filterMap specKeepItem

/-- Modelled from the spec: the parser keeps the `questions` list of an
object, a bare list, and nothing otherwise, filtering the elements. -/
def specParseQuiz (data : Json) : List QuizItem :=
  match data with
  | .obj fs =>
    match fieldsGet fs "questions".toList with
    | some (.arr xs) => specItems (jsonListToList xs)
    | _ => []
  | .arr xs => specItems (jsonListToList xs)
  | _ => []

/-- The default `num_questions` argument of `generate_quiz`
(src/app.py:87). -/
def defaultNumQuestions : Int := 4

/-- The question count used in the quiz prompt:
`n = max(3, min(5, int(num_questions)))` (src/app.py:90); `int` on an
integer is the identity. -/
def generateQuizN (numQuestions : Int) : Int :=
  max 3 (min 5 numQuestions)

/- ---------------------------------------------------------------------
Helper lemmas about run substitution and stripping. -/

theorem pyIsSpace_imp_inClassW : ∀ c, pyIsSpace c = true → inClassW c = true := by
  intro c h
  simp only [pyIsSpace, Bool.or_eq_true, beq_iff_eq] at h
  rcases h with ((((h | h) | h) | h) | h) | h <;> subst h <;> decide

theorem inClassW_eq_nonWordOrUnderscore : ∀ c, inClassW c = nonWordOrUnderscore c := by
  intro c
  by_cases h : c = '_'
  · subst h; decide
  · have h2 : (c == '_') = false := by simp [h]
    simp [inClassW, nonWordOrUnderscore, pyIsWordChar, h2]

theorem subRunsAux_true_eq_dropWhile (p : Char → Bool) :
    ∀ l : Str, subRunsAux p true l = subRunsAux p false (l.dropWhile p) := by
  intro l
  induction l with
  | nil => rfl
  | cons c cs ih =>
    by_cases hc : p c = true
    · simp [subRunsAux, hc, List.dropWhile_cons_of_pos hc, ih]
    · simp [subRunsAux, hc, List.dropWhile_cons_of_neg hc]

theorem replaceRuns_eq_subRunsAux (p : Char → Bool) :
    ∀ (n : Nat) (l : Str), l.length ≤ n → replaceRuns p l = subRunsAux p false l := by
  intro n
  induction n with
  | zero =>
    intro l h
    have : l = [] := List.length_eq_zero.mp (Nat.le_zero.mp h)
    subst this
    simp [replaceRuns, subRunsAux]
  | succ n ih =>
    intro l h
    cases l with
    | nil => simp [replaceRuns, subRunsAux]
    | cons c cs =>
      have hcs : cs.length ≤ n := Nat.le_of_succ_le_succ h
      by_cases hc : p c = true
      · have ih1 := ih (cs.dropWhile p)
          (Nat.le_trans (List.dropWhile_sublist p).length_le hcs)
        simp [replaceRuns, subRunsAux, hc, ih1, subRunsAux_true_eq_dropWhile]
      · simp [replaceRuns, subRunsAux, hc, ih cs hcs]

theorem subRunsAux_collapse (p q : Char → Bool) (hq : q ' ' = true)
    (himp : ∀ c, p c = false → q c = false) :
    ∀ x : Str, (∀ b, subRunsAux q b (subRunsAux p true x) = subRunsAux p true x) ∧
      subRunsAux q false (subRunsAux p false x) = subRunsAux p false x := by
  intro x
  induction x with
  | nil => exact ⟨fun _ => rfl, rfl⟩
  | cons c cs ih =>
    by_cases hc : p c = true
    · constructor
      · intro b
        simpa [subRunsAux, hc] using ih.1 b
      · simp [subRunsAux, hc, hq, ih.1]
    · have hqc : q c = false := himp c (by simpa using hc)
      constructor
      · intro b
        simp [subRunsAux, hc, hqc, ih.2]
      · simp [subRunsAux, hc, hqc, ih.2]

theorem lstrip_subRunsAux (p : Char → Bool) :
    ∀ y : Str, lstrip (subRunsAux p false y) = lstrip (subRunsAux p true y) := by
  intro y
  cases y with
  | nil => rfl
  | cons c cs =>
    by_cases hc : p c = true
    · simp [subRunsAux, hc, lstrip, List.dropWhile_cons_of_pos (show pyIsSpace ' ' = true from rfl)]
    · simp [subRunsAux, hc]

theorem pyStrip_subRunsAux_flag (p : Char → Bool) (y : Str) :
    pyStrip (subRunsAux p false y) = pyStrip (subRunsAux p true y) := by
  unfold pyStrip
  rw [lstrip_subRunsAux]

theorem pyStrip_cons_space (x : Str) : pyStrip (' ' :: x) = pyStrip x := by
  simp [pyStrip, lstrip, List.dropWhile_cons_of_pos (show pyIsSpace ' ' = true from rfl)]

theorem subRunsAux_true_append (p : Char → Bool) :
    ∀ (w r : Str), (∀ c ∈ w, p c = true) → subRunsAux p true (w ++ r) = subRunsAux p true r := by
  intro w
  induction w with
  | nil => intro r _; rfl
  | cons c w' ih =>
    intro r hw
    have hc : p c = true := hw c (List.mem_cons_self c w')
    simp only [List.cons_append, subRunsAux, hc, if_true]
    exact ih r fun d hd => hw d (List.mem_cons_of_mem c hd)

theorem subRunsAux_append_all (p : Char → Bool) (w : Str) (hw : ∀ c ∈ w, p c = true) :
    ∀ (r : Str) (f : Bool), subRunsAux p f (r ++ w) = subRunsAux p f r ∨
      subRunsAux p f (r ++ w) = subRunsAux p f r ++ [' '] := by
  intro r
  induction r with
  | nil =>
    intro f
    cases w with
    | nil => left; rfl
    | cons d ds =>
      have hd : p d = true := hw d (List.mem_cons_self d ds)
      have hall : subRunsAux p true (d :: ds) = ([] : Str) := by
        have := subRunsAux_true_append p (d :: ds) [] hw
        simpa using this
      have hds : subRunsAux p true ds = ([] : Str) := by
        simpa [subRunsAux, hd] using hall
      cases f with
      | true => left; simpa [List.nil_append, subRunsAux] using hall
      | false =>
        right
        simp [subRunsAux, hd, hds]
  | cons c r' ih =>
    intro f
    by_cases hc : p c = true
    · cases f with
      | true =>
        simpa [subRunsAux, hc] using ih true
      | false =>
        rcases ih true with h | h
        · left; simp [subRunsAux, hc, h]
        · right; simp [subRunsAux, hc, h]
    · rcases ih false with h | h
      · left; simp [subRunsAux, hc, h]
      · right; simp [subRunsAux, hc, h]

theorem rstrip_append_space (y : Str) : rstrip (y ++ [' ']) = rstrip y := by
  simp [rstrip, List.reverse_append,
    List.dropWhile_cons_of_pos (show pyIsSpace ' ' = true from rfl)]

theorem pyStrip_append_space (x : Str) : pyStrip (x ++ [' ']) = pyStrip x := by
  unfold pyStrip lstrip
  rw [List.dropWhile_append]
  by_cases h : (x.dropWhile pyIsSpace).isEmpty = true
  · simp only [h, if_true]
    rw [List.isEmpty_iff.mp h]
    rfl
  · simp only [h, if_false]
    exact rstrip_append_space _

theorem pyStrip_subRunsAux_front (p : Char → Bool)
    (hp : ∀ c, pyIsSpace c = true → p c = true) :
    ∀ (w r : Str), (∀ c ∈ w, pyIsSpace c = true) →
      pyStrip (subRunsAux p false (w ++ r)) = pyStrip (subRunsAux p false r) := by
  intro w
  induction w with
  | nil => intro r _; rfl
  | cons c w' ih =>
    intro r hw
    have hc : p c = true := hp c (hw c (List.mem_cons_self c w'))
    have hstep : subRunsAux p false ((c :: w') ++ r) = ' ' :: subRunsAux p true (w' ++ r) := by
      simp [subRunsAux, hc]
    rw [hstep, pyStrip_cons_space, ← pyStrip_subRunsAux_flag]
    exact ih r fun d hd => hw d (List.mem_cons_of_mem c hd)

theorem pyStrip_subRunsAux_pyStrip (p : Char → Bool)
    (hp : ∀ c, pyIsSpace c = true → p c = true) (t : Str) :
    pyStrip (subRunsAux p false (pyStrip t)) = pyStrip (subRunsAux p false t) := by
  have hfront : pyStrip (subRunsAux p false t) =
      pyStrip (subRunsAux p false (t.dropWhile pyIsSpace)) := by
    conv_lhs => rw [← List.takeWhile_append_dropWhile (p := pyIsSpace) (l := t)]
    exact pyStrip_subRunsAux_front p hp _ _ fun c hc => List.mem_takeWhile_imp hc
  set u := t.dropWhile pyIsSpace with hu
  have hsplit : u = rstrip u ++ (u.reverse.takeWhile pyIsSpace).reverse := by
    calc u = u.reverse.reverse := (List.reverse_reverse u).symm
      _ = (u.reverse.takeWhile pyIsSpace ++ u.reverse.dropWhile pyIsSpace).reverse := by
          rw [List.takeWhile_append_dropWhile]
      _ = (u.reverse.dropWhile pyIsSpace).reverse ++ (u.reverse.takeWhile pyIsSpace).reverse := by
          rw [List.reverse_append]
      _ = rstrip u ++ (u.reverse.takeWhile pyIsSpace).reverse := rfl
  have hw2 : ∀ c ∈ (u.reverse.takeWhile pyIsSpace).reverse, p c = true := by
    intro c hc
    exact hp c (List.mem_takeWhile_imp (List.mem_reverse.mp hc))
  have hback : pyStrip (subRunsAux p false u) = pyStrip (subRunsAux p false (rstrip u)) := by
    conv_lhs => rw [hsplit]
    rcases subRunsAux_append_all p _ hw2 (rstrip u) false with h | h
    · rw [h]
    · rw [h, pyStrip_append_space]
  have hps : pyStrip t = rstrip u := rfl
  rw [hps, hfront, hback]

theorem normalizeText_closed (s : Str) :
    normalizeText s = pyStrip (subRunsAux inClassW false (pyLower s)) := by
  unfold normalizeText pySubRun
  rw [(subRunsAux_collapse inClassW pyIsSpace rfl
    (fun c hc => by
      by_contra hne
      have : inClassW c = true := pyIsSpace_imp_inClassW c (by simpa using hne)
      simp [this] at hc) _).2]
  exact pyStrip_subRunsAux_pyStrip inClassW pyIsSpace_imp_inClassW (pyLower s)

theorem normalizeSpec_closed (s : Str) :
    normalizeSpec s = pyStrip (subRunsAux inClassW false (pyLower s)) := by
  unfold normalizeSpec
  rw [replaceRuns_eq_subRunsAux pyIsSpace _ _ (Nat.le_refl _),
    replaceRuns_eq_subRunsAux nonWordOrUnderscore _ _ (Nat.le_refl _)]
  have hfun : nonWordOrUnderscore = inClassW :=
    funext fun c => (inClassW_eq_nonWordOrUnderscore c).symm
  rw [hfun]
  rw [(subRunsAux_collapse inClassW pyIsSpace rfl
    (fun c hc => by
      by_contra hne
      have : inClassW c = true := pyIsSpace_imp_inClassW c (by simpa using hne)
      simp [this] at hc) _).2]

theorem normalizeText_eq_normalizeSpec (s : Str) : normalizeText s = normalizeSpec s :=
  (normalizeText_closed s).trans (normalizeSpec_closed s).symm

theorem charToNat_ofNat_valid (m : Nat) (h : m.isValidChar) : (Char.ofNat m).toNat = m := by
  unfold Char.ofNat
  rw [dif_pos h]
  rfl

theorem charToLower_toLower (c : Char) : c.toLower.toLower = c.toLower := by
  unfold Char.toLower
  by_cases h : c.toNat ≥ 65 ∧ c.toNat ≤ 90
  · rw [if_pos h]
    have hv : (c.toNat + 32).isValidChar := Or.inl (by omega)
    have ht : (Char.ofNat (c.toNat + 32)).toNat = c.toNat + 32 := charToNat_ofNat_valid _ hv
    rw [ht, if_neg (by omega)]
  · rw [if_neg h, if_neg h]

theorem mem_subRunsAux (p : Char → Bool) :
    ∀ (l : Str) (f : Bool) (c : Char), c ∈ subRunsAux p f l → c = ' ' ∨ c ∈ l := by
  intro l
  induction l with
  | nil => intro f c hc; simp [subRunsAux] at hc
  | cons d ds ih =>
    intro f c hc
    by_cases hd : p d = true
    · cases f with
      | true =>
        simp only [subRunsAux, hd, if_true] at hc
        rcases ih true c hc with h | h
        · exact Or.inl h
        · exact Or.inr (List.mem_cons_of_mem d h)
      | false =>
        simp only [subRunsAux, hd, if_true, if_false, Bool.false_eq_true,
          List.mem_cons] at hc
        rcases hc with h | h
        · exact Or.inl h
        · rcases ih true c h with h2 | h2
          · exact Or.inl h2
          · exact Or.inr (List.mem_cons_of_mem d h2)
    · simp only [subRunsAux, hd, if_false, Bool.false_eq_true, List.mem_cons] at hc
      rcases hc with h | h
      · exact Or.inr (h ▸ List.mem_cons_self d ds)
      · rcases ih false c h with h2 | h2
        · exact Or.inl h2
        · exact Or.inr (List.mem_cons_of_mem d h2)

theorem mem_pyStrip (l : Str) (c : Char) (h : c ∈ pyStrip l) : c ∈ l := by
  unfold pyStrip rstrip lstrip at h
  have h1 := (List.dropWhile_sublist _).subset (List.mem_reverse.mp h)
  exact (List.dropWhile_sublist _).subset (List.mem_reverse.mp h1)

theorem mem_pyLower_fixed (s : Str) (c : Char) (h : c ∈ pyLower s) : c.toLower = c := by
  unfold pyLower at h
  rcases List.mem_map.mp h with ⟨d, _, hd⟩
  rw [← hd, charToLower_toLower]

theorem normalizeText_chars (s : Str) (c : Char) (h : c ∈ normalizeText s) :
    c.toLower = c := by
  rw [normalizeText_closed] at h
  rcases mem_subRunsAux inClassW _ _ _ (mem_pyStrip _ _ h) with h2 | h2
  · subst h2; decide
  · exact mem_pyLower_fixed s c h2

theorem pyLower_normalizeText (s : Str) : pyLower (normalizeText s) = normalizeText s :=
  (List.map_congr_left fun c hc => normalizeText_chars s c hc).trans (List.map_id _)

theorem normalizeText_idem (s : Str) :
    normalizeText (normalizeText s) = normalizeText s := by
  calc normalizeText (normalizeText s)
      = pyStrip (subRunsAux inClassW false (normalizeText s)) := by
        rw [normalizeText_closed (normalizeText s), pyLower_normalizeText]
    _ = pyStrip (subRunsAux inClassW false
          (pyStrip (subRunsAux inClassW false (pyLower s)))) := by
        rw [normalizeText_closed s]
    _ = pyStrip (subRunsAux inClassW false
          (subRunsAux inClassW false (pyLower s))) :=
        pyStrip_subRunsAux_pyStrip inClassW pyIsSpace_imp_inClassW _
    _ = pyStrip (subRunsAux inClassW false (pyLower s)) := by
        rw [(subRunsAux_collapse inClassW inClassW (by decide) (fun _ h => h) _).2]
    _ = normalizeText s := (normalizeText_closed s).symm

/- ---------------------------------------------------------------------
Substring test and grading lemmas. -/

theorem startsWith_iff : ∀ (p s : Str), startsWith p s = true ↔ ∃ t, s = p ++ t := by
  intro p
  induction p with
  | nil => intro s; simp [startsWith]
  | cons a ps ih =>
    intro s
    cases s with
    | nil => simp [startsWith]
    | cons b bs =>
      simp only [startsWith, Bool.and_eq_true, beq_iff_eq, ih, List.cons_append,
        List.cons.injEq]
      constructor
      · rintro ⟨rfl, t, ht⟩; exact ⟨t, rfl, ht⟩
      · rintro ⟨t, h1, h2⟩; exact ⟨h1.symm, t, h2⟩

theorem occursIn_iff (pat : Str) : ∀ s : Str,
    occursIn pat s = true ↔ ∃ x y, s = x ++ pat ++ y := by
  intro s
  induction s with
  | nil =>
    simp only [occursIn, List.isEmpty_iff]
    constructor
    · rintro rfl; exact ⟨[], [], rfl⟩
    · rintro ⟨x, y, h⟩
      rcases List.append_eq_nil.mp h.symm with ⟨h1, rfl⟩
      rcases List.append_eq_nil.mp h1 with ⟨rfl, rfl⟩
      rfl
  | cons c cs ih =>
    simp only [occursIn, Bool.or_eq_true, startsWith_iff, ih]
    constructor
    · rintro (⟨t, ht⟩ | ⟨x, y, h⟩)
      · exact ⟨[], t, by simpa using ht⟩
      · exact ⟨c :: x, y, by simp [h]⟩
    · rintro ⟨x, y, h⟩
      cases x with
      | nil => exact Or.inl ⟨y, by simpa using h⟩
      | cons d xs =>
        simp only [List.cons_append, List.cons.injEq] at h
        exact Or.inr ⟨xs, y, h.2⟩

theorem isCorrectAns_comm (u c : Str) : isCorrectAns u c = isCorrectAns c u := by
  by_cases h : u = c
  · subst h; rfl
  · have h1 : (u == c) = false := by simp [h]
    have h2 : (c == u) = false := by simp [Ne.symm h]
    simp only [isCorrectAns, h1, h2, Bool.false_or]
    exact Bool.or_comm _ _

theorem isCorrectAns_iff (u c : Str) : isCorrectAns u c = true ↔
    (u = c ∨ (u ≠ [] ∧ ∃ x y, c = x ++ u ++ y) ∨ (c ≠ [] ∧ ∃ x y, u = x ++ c ++ y)) := by
  simp only [isCorrectAns, Bool.or_eq_true, Bool.and_eq_true, beq_iff_eq,
    Bool.not_eq_true', List.isEmpty_eq_false, occursIn_iff, or_assoc]

theorem wrongMsg_ne_correctMsg (x : Str) : wrongMsg x ≠ correctMsg := by
  intro h
  have h1 : (wrongMsg x).head? = some 'N' := rfl
  rw [h] at h1
  have h2 : correctMsg.head? = some 'C' := rfl
  rw [h1] at h2
  simp at h2

theorem checkAnswers_nil_left (ca : List Str) : checkAnswers [] ca = (0, []) := by
  cases ca <;> rfl

theorem checkAnswers_nil_right (ua : List Str) : checkAnswers ua [] = (0, []) := by
  cases ua <;> rfl

theorem checkAnswers_cons (u c : Str) (us cs : List Str) :
    checkAnswers (u :: us) (c :: cs) =
      if isCorrectAns (normalizeText u) (normalizeText c)
      then ((checkAnswers us cs).1 + 1, correctMsg :: (checkAnswers us cs).2)
      else ((checkAnswers us cs).1, wrongMsg c :: (checkAnswers us cs).2) := rfl

theorem checkAnswers_feedback_getD (ua : List Str) : ∀ (ca : List Str) (i : Nat),
    i < min ua.length ca.length →
    (checkAnswers ua ca).2.getD i [] =
      (if isCorrectAns (normalizeText (ua.getD i [])) (normalizeText (ca.getD i []))
       then correctMsg else wrongMsg (ca.getD i [])) := by
  induction ua with
  | nil => intro ca i h; simp at h
  | cons u us ih =>
    intro ca i h
    cases ca with
    | nil => simp at h
    | cons c cs =>
      rw [checkAnswers_cons]
      cases i with
      | zero =>
        by_cases hc : isCorrectAns (normalizeText u) (normalizeText c) = true
        · simp [hc]
        · simp [hc]
      | succ i =>
        have h' : i < min us.length cs.length := by
          simpa [Nat.succ_min_succ] using h
        by_cases hc : isCorrectAns (normalizeText u) (normalizeText c) = true
        · simpa [hc] using ih cs i h'
        · simpa [hc] using ih cs i h'

theorem checkAnswers_feedback_length (ua : List Str) : ∀ ca : List Str,
    (checkAnswers ua ca).2.length = min ua.length ca.length := by
  induction ua with
  | nil => intro ca; rw [checkAnswers_nil_left]; simp
  | cons u us ih =>
    intro ca
    cases ca with
    | nil => rw [checkAnswers_nil_right]; simp
    | cons c cs =>
      rw [checkAnswers_cons]
      by_cases hc : isCorrectAns (normalizeText u) (normalizeText c) = true
      · simp [hc, ih cs, Nat.succ_min_succ]
      · simp [hc, ih cs, Nat.succ_min_succ]

theorem checkAnswers_score_eq_countP (ua : List Str) : ∀ ca : List Str,
    (checkAnswers ua ca).1 =
      (checkAnswers ua ca).2.countP (fun f => f == correctMsg) := by
  induction ua with
  | nil => intro ca; rw [checkAnswers_nil_left]; rfl
  | cons u us ih =>
    intro ca
    cases ca with
    | nil => rw [checkAnswers_nil_right]; rfl
    | cons c cs =>
      rw [checkAnswers_cons]
      have hne : (wrongMsg c == correctMsg) = false :=
        beq_eq_false_iff_ne.mpr (wrongMsg_ne_correctMsg c)
      by_cases hc : isCorrectAns (normalizeText u) (normalizeText c) = true
      · simp [hc, List.countP_cons, ih cs]
      · simp [hc, List.countP_cons, hne, ih cs]

theorem checkAnswers_score_le (ua : List Str) : ∀ ca : List Str,
    (checkAnswers ua ca).1 ≤ min ua.length ca.length := by
  induction ua with
  | nil => intro ca; rw [checkAnswers_nil_left]; simp
  | cons u us ih =>
    intro ca
    cases ca with
    | nil => rw [checkAnswers_nil_right]; simp
    | cons c cs =>
      rw [checkAnswers_cons]
      by_cases hc : isCorrectAns (normalizeText u) (normalizeText c) = true
      · simpa [hc, Nat.succ_min_succ] using ih cs
      · simp only [hc, if_false, Bool.false_eq_true, List.length_cons, Nat.succ_min_succ]
        exact Nat.le_succ_of_le (ih cs)

theorem checkAnswers_take (ua : List Str) : ∀ ca : List Str,
    checkAnswers ua ca =
      checkAnswers (ua.take (min ua.length ca.length))
        (ca.take (min ua.length ca.length)) := by
  induction ua with
  | nil => intro ca; simp [checkAnswers_nil_left]
  | cons u us ih =>
    intro ca
    cases ca with
    | nil => simp [checkAnswers_nil_right]
    | cons c cs =>
      simp only [List.length_cons, Nat.succ_min_succ, List.take_succ_cons]
      rw [checkAnswers_cons, checkAnswers_cons, ← ih cs]

/- ---------------------------------------------------------------------
Parser lemmas. -/

theorem keepPair (q a : Str) (tailEq : List QuizItem) :
    (if !q.isEmpty && !a.isEmpty then (q, a) :: tailEq else tailEq) =
      (match (if q = [] ∨ a = [] then none else some (q, a)) with
       | some it => it :: tailEq
       | none => tailEq) := by
  by_cases hq : q = []
  · simp [hq]
  · by_cases ha : a = []
    · simp [hq, ha]
    · simp [hq, ha]

theorem parseItems_cons (item : Json) (rest : JsonList) :
    parseItems (.cons item rest) =
      match specKeepItem item with
      | some it => it :: parseItems rest
      | none => parseItems rest := by
  cases item with
  | obj fs => exact keepPair _ _ (parseItems rest)
  | null => rfl
  | bool b => rfl
  | num n => rfl
  | str s => rfl
  | arr xs => rfl

theorem parseItems_eq_specItems : ∀ xs : JsonList,
    parseItems xs = specItems (jsonListToList xs)
  | .nil => rfl
  | .cons item rest => by
    have ih := parseItems_eq_specItems rest
    rw [parseItems_cons]
    cases h : specKeepItem item with
    | none => simp [jsonListToList, specItems, List.filterMap_cons, h, ih]
    | some it => simp [jsonListToList, specItems, List.filterMap_cons, h, ih]

theorem parseQuizShaped_eq_spec (d : Json) : parseQuizShaped d = specParseQuiz d := by
  cases d with
  | obj fs =>
    simp only [parseQuizShaped, specParseQuiz]
    cases h : fieldsGet fs "questions".toList with
    | none => rfl
    | some v =>
      cases v with
      | arr xs => exact parseItems_eq_specItems xs
      | null => rfl
      | bool b => rfl
      | num n => rfl
      | str s => rfl
      | obj gs => rfl
  | arr xs => exact parseItems_eq_specItems xs
  | null => rfl
  | bool b => rfl
  | num n => rfl
  | str s => rfl

/- ---------------------------------------------------------------------
Claim theorems. -/

/-- C1: in `check_answers`, item `i` (for `i < total`) is judged correct —
its feedback entry is the affirmative string — if and only if the
normalized answers are equal, or the normalized user answer is non-empty
and a substring of the normalized correct answer, or vice versa; and the
containment rule is symmetric: swapping the two answers preserves the
verdict. -/
theorem C1_item_correct_iff :
    (∀ (ua ca : List Str) (i : Nat), i < min ua.length ca.length →
      ((checkAnswers ua ca).2.getD i [] = correctMsg ↔
        (normalizeText (ua.getD i []) = normalizeText (ca.getD i []) ∨
          (normalizeText (ua.getD i []) ≠ [] ∧
            ∃ x y, normalizeText (ca.getD i []) = x ++ normalizeText (ua.getD i []) ++ y) ∨
          (normalizeText (ca.getD i []) ≠ [] ∧
            ∃ x y, normalizeText (ua.getD i []) = x ++ normalizeText (ca.getD i []) ++ y)))) ∧
    (∀ u c : Str, isCorrectAns u c = isCorrectAns c u) := by
  constructor
  · intro ua ca i h
    rw [checkAnswers_feedback_getD ua ca i h]
    by_cases hc : isCorrectAns (normalizeText (ua.getD i []))
        (normalizeText (ca.getD i [])) = true
    · rw [if_pos hc]
      exact iff_of_true rfl ((isCorrectAns_iff _ _).mp hc)
    · rw [if_neg hc]
      constructor
      · intro habs; exact absurd habs (wrongMsg_ne_correctMsg _)
      · intro hp; exact absurd ((isCorrectAns_iff _ _).mpr hp) hc
  · exact isCorrectAns_comm

/-- Witness for C1 at the concrete input `ua = ["a"]`, `ca = ["b"]`,
`i = 0`. -/
theorem C1_item_correct_iff_witness :
    ((checkAnswers [['a']] [['b']]).2.getD 0 [] = correctMsg ↔
      (normalizeText (([['a']] : List Str).getD 0 []) =
          normalizeText (([['b']] : List Str).getD 0 []) ∨
        (normalizeText (([['a']] : List Str).getD 0 []) ≠ [] ∧
          ∃ x y, normalizeText (([['b']] : List Str).getD 0 []) =
            x ++ normalizeText (([['a']] : List Str).getD 0 []) ++ y) ∨
        (normalizeText (([['b']] : List Str).getD 0 []) ≠ [] ∧
          ∃ x y, normalizeText (([['a']] : List Str).getD 0 []) =
            x ++ normalizeText (([['b']] : List Str).getD 0 []) ++ y))) :=
  C1_item_correct_iff.1 [['a']] [['b']] 0 (by decide)

/-- C2: `check_answers` compares exactly the shared prefix of length
`total = min(len(userAnswers), len(correctAnswers))`: the result equals
the result on the truncated inputs, the feedback list has exactly
`total` entries, the score counts the correct entries, and an empty
input on either side yields `(0, [])`. -/
theorem C2_shared_prefix (ua ca : List Str) :
    checkAnswers ua ca =
      checkAnswers (ua.take (min ua.length ca.length))
        (ca.take (min ua.length ca.length)) ∧
    (checkAnswers ua ca).2.length = min ua.length ca.length ∧
    (checkAnswers ua ca).1 =
      (checkAnswers ua ca).2.countP (fun f => f == correctMsg) ∧
    checkAnswers [] ca = (0, []) ∧
    checkAnswers ua [] = (0, []) :=
  ⟨checkAnswers_take ua ca, checkAnswers_feedback_length ua ca,
    checkAnswers_score_eq_countP ua ca, checkAnswers_nil_left ca,
    checkAnswers_nil_right ua⟩

/-- C3: feedback for a correct item is the fixed affirmative string and
feedback for an incorrect item embeds the original (non-normalized)
correct answer; concretely, grading `["mitochondria!!", "London"]`
against `["Mitochondria", "Paris"]` gives score 1 and feedback
`["Correct!", "Not quite. Expected: Paris"]`. -/
theorem C3_feedback_strings :
    checkAnswers ["mitochondria!!".toList, "London".toList]
        ["Mitochondria".toList, "Paris".toList]
      = (1, ["Correct!".toList, "Not quite. Expected: Paris".toList]) ∧
    (∀ (ua ca : List Str) (i : Nat), i < min ua.length ca.length →
      ((checkAnswers ua ca).2.getD i [] = correctMsg ∨
        (checkAnswers ua ca).2.getD i [] = wrongMsg (ca.getD i []))) := by
  constructor
  · decide
  · intro ua ca i h
    rw [checkAnswers_feedback_getD ua ca i h]
    by_cases hc : isCorrectAns (normalizeText (ua.getD i []))
        (normalizeText (ca.getD i [])) = true
    · rw [if_pos hc]; exact Or.inl rfl
    · rw [if_neg hc]; exact Or.inr rfl

/-- Witness for C3 at the concrete input `ua = ["x"]`, `ca = ["y"]`,
`i = 0` (together with the closed first conjunct). -/
theorem C3_feedback_strings_witness :
    checkAnswers ["mitochondria!!".toList, "London".toList]
        ["Mitochondria".toList, "Paris".toList]
      = (1, ["Correct!".toList, "Not quite. Expected: Paris".toList]) ∧
    ((checkAnswers [['x']] [['y']]).2.getD 0 [] = correctMsg ∨
      (checkAnswers [['x']] [['y']]).2.getD 0 [] =
        wrongMsg (([['y']] : List Str).getD 0 [])) :=
  ⟨C3_feedback_strings.1, C3_feedback_strings.2 [['x']] [['y']] 0 (by decide)⟩

/-- C4 counterexample: the claim says underscores are preserved by
normalization; on `"a_b"` the code's regex `[\W_]+` replaces the
underscore with a space, so `normalize("a_b") = "a b" ≠ "a_b"`. -/
theorem C4_counterexample :
    normalizeText "a_b".toList = "a b".toList ∧
      normalizeText "a_b".toList ≠ "a_b".toList := by
  decide

/-- C4 (amended): for every input string, normalize lowercases it,
replaces every maximal run of characters that are not letters or digits
(the non-word characters together with the underscore) by a single
space, collapses whitespace runs, and trims — underscores are replaced
like punctuation, not preserved.  `normalizeSpec` is the spec-side
restatement of that pipeline. -/
theorem C4_amended_normalize_characterization (s : Str) :
    normalizeText s = normalizeSpec s :=
  normalizeText_eq_normalizeSpec s

/-- C5: normalization is idempotent. -/
theorem C5_normalize_idempotent (s : Str) :
    normalizeText (normalizeText s) = normalizeText s :=
  normalizeText_idem s

/-- C6 counterexample: the claim asserts
`normalize("Photo-synthesis!") == normalize("photosynthesis")`, but the
code maps the hyphen to a space: the left side is `"photo synthesis"`
while the right side is `"photosynthesis"`. -/
theorem C6_counterexample :
    normalizeText "Photo-synthesis!".toList ≠
      normalizeText "photosynthesis".toList := by
  decide

/-- C6 (amended): normalization is case-insensitive and maps punctuation
runs to single spaces, so `normalize("Photo-synthesis!")` equals
`normalize("photo synthesis")` (the spaced form, not the concatenated
one). -/
theorem C6_amended_case_punctuation :
    normalizeText "Photo-synthesis!".toList =
      normalizeText "photo synthesis".toList := by
  decide

/-- C7: whenever the JSON reader fails on the raw text (modelled by the
abstract `loads` returning `none`), `_parse_quiz_json` returns the empty
quiz list — the `except` clause swallows the error. -/
theorem C7_parse_failure_yields_empty (loads : Str → Option Json) (text : Str)
    (h : loads text = none) : parseQuizJson loads text = [] := by
  unfold parseQuizJson
  rw [h]

/-- Witness for C7: a reader that always fails, applied to `"not json"`. -/
theorem C7_parse_failure_yields_empty_witness :
    parseQuizJson (fun _ => none) "not json".toList = [] :=
  C7_parse_failure_yields_empty (fun _ => none) "not json".toList rfl

/-- C8: on a parsed JSON value the parser takes the `questions` list of
an object (when it is a list), a bare list directly, and nothing
otherwise, keeping in order exactly the records whose `question` and
`answer` fields are non-empty after coercion and trimming; concretely,
`{"questions": [{"question":"Q1","answer":"A1"},
{"question":"","answer":"A2"}]}` yields exactly `[{Q1, A1}]`. -/
theorem C8_parse_shape_and_filter :
    (∀ d : Json, parseQuizShaped d = specParseQuiz d) ∧
    parseQuizShaped
        (Json.obj (.cons "questions".toList
          (Json.arr (.cons (Json.obj (.cons "question".toList (Json.str "Q1".toList)
              (.cons "answer".toList (Json.str "A1".toList) .nil)))
            (.cons (Json.obj (.cons "question".toList (Json.str "".toList)
              (.cons "answer".toList (Json.str "A2".toList) .nil))) .nil))) .nil))
      = [("Q1".toList, "A1".toList)] :=
  ⟨parseQuizShaped_eq_spec, by decide⟩

/-- C9: the question count used by `generate_quiz` is the requested
count clamped into `[3, 5]` — `max(3, min(5, count))` — and the default
requested count is 4. -/
theorem C9_count_clamped (count : Int) :
    generateQuizN count = max 3 (min 5 count) ∧
    3 ≤ generateQuizN count ∧
    generateQuizN count ≤ 5 ∧
    generateQuizN defaultNumQuestions = 4 ∧
    defaultNumQuestions = 4 := by
  refine ⟨rfl, le_max_left _ _, ?_, by decide, rfl⟩
  exact max_le (by norm_num) (min_le_left _ _)

/-- C10: the score returned by `check_answers` is between 0 and
`min(len(userAnswers), len(correctAnswers))` and equals the number of
feedback entries that are the fixed affirmative string. -/
theorem C10_score_invariants (ua ca : List Str) :
    (checkAnswers ua ca).1 ≤ min ua.length ca.length ∧
    0 ≤ (checkAnswers ua ca).1 ∧
    (checkAnswers ua ca).1 =
      (checkAnswers ua ca).2.countP (fun f => f == correctMsg) :=
  ⟨checkAnswers_score_le ua ca, Nat.zero_le _, checkAnswers_score_eq_countP ua ca⟩
